import Mathlib

/-!
# Verification of the `antarray` antenna-array analysis library

Shallow embedding, in Lean 4, of the array-factor evaluators of the
`antarray` repository (files `antarray/antennaarray.py`,
`antarray/lineararray.py`, `antarray/rectarray.py`, and the legacy
top-level variant `antennaarray.py`), together with theorems settling
the frozen specification claims about them.

Conventions of the embedding:
* numpy float arrays become functions `ℕ → ℝ` (or `ℕ → ℂ`) together with
  an explicit length, or `List ℝ` where the code builds a concrete list;
* angles stay in degrees as in the source and are converted by
  `deg2rad` (the source's `angle / 180 * np.pi`);
* the fallible `RectArray.get_pattern` dispatch returns an `Option`:
  `none` models the `UnboundLocalError` raised when no branch assigns
  the local `AF` before the final `return`.
-/

namespace Antarray

noncomputable section

open Finset

/-- Degree-to-radian conversion, as written in the source:
`angle / 180 * np.pi`. -/
def deg2rad (a : ℝ) : ℝ := a / 180 * Real.pi

/-! ## Geometry model (`LinearArray.__init__`, `RectArray.__init__`) -/

/-- State of a `LinearArray` object: the stored parameters together with
the derived element coordinates (`AntennaArray.__init__` stores
`x = np.arange(0, size, 1) * spacing` and `y = np.zeros(size)`). -/
structure LinearArrayState where
  size : ℕ
  spacing : ℝ
  x : List ℝ
  y : List ℝ

/-- `LinearArray.__init__(size, spacing)` from `antarray/lineararray.py`:
element `i` is placed at `x = i * spacing`, `y = 0`. -/
def linearInit (size : ℕ) (spacing : ℝ) : LinearArrayState :=
  { size := size
    spacing := spacing
    x := (List.range size).map (fun (i : ℕ) => (i : ℝ) * spacing)
    y := List.replicate size 0 }

/-- `LinearArray.update_parameters(**kwargs)`: the recognized keys
`size` and `spacing` are merged into the current attribute dictionary
(an absent key keeps the stored value; unrecognized keys are filtered
out by the source and hence are not modeled), after which the source
calls `self.__init__(self.size, self.spacing)`, rebuilding the whole
geometry. -/
def linearUpdateParameters (a : LinearArrayState)
    (size? : Option ℕ) (spacing? : Option ℝ) : LinearArrayState :=
  linearInit (size?.getD a.size) (spacing?.getD a.spacing)

/-- State of a `RectArray` object: stored parameters plus derived
element coordinates along each axis
(`x = np.arange(0, sizex, 1) * spacingx`,
`y = np.arange(0, sizey, 1) * spacingy`). -/
structure RectArrayState where
  sizex : ℕ
  sizey : ℕ
  spacingx : ℝ
  spacingy : ℝ
  x : List ℝ
  y : List ℝ

/-- `RectArray.__init__(sizex, sizey, spacingx, spacingy)` from
`antarray/rectarray.py`. -/
def rectInit (sizex sizey : ℕ) (spacingx spacingy : ℝ) : RectArrayState :=
  { sizex := sizex
    sizey := sizey
    spacingx := spacingx
    spacingy := spacingy
    x := (List.range sizex).map (fun (i : ℕ) => (i : ℝ) * spacingx)
    y := (List.range sizey).map (fun (i : ℕ) => (i : ℝ) * spacingy) }

/-- `RectArray.update_parameters(**kwargs)`: merge the recognized keys
`sizex`, `sizey`, `spacingx`, `spacingy`, then rebuild through
`self.__init__`. -/
def rectUpdateParameters (a : RectArrayState)
    (sizex? sizey? : Option ℕ) (spacingx? spacingy? : Option ℝ) :
    RectArrayState :=
  rectInit (sizex?.getD a.sizex) (sizey?.getD a.sizey)
    (spacingx?.getD a.spacingx) (spacingy?.getD a.spacingy)

/-! Helper facts about the geometry lists. -/

theorem range_map_getD (size : ℕ) (f : ℕ → ℝ) (i : ℕ) (h : i < size) :
    (((List.range size).map f).getD i 0) = f i := by
  rw [List.getD_eq_getElem?_getD]
  rw [List.getElem?_map]
  simp [List.getElem?_range h]

/-- C9: constructing a linear array of positive size and spacing places
element `i` at `x = i * spacing` for `i ∈ [0, size)` and `y = 0`; in
particular size 16 with spacing 0.5 yields
`x = [0, 0.5, ..., 7.5]` and size 32 with spacing 1 yields
`x = [0, 1, ..., 31]`. -/
theorem linear_geometry_c9 :
    (∀ (size : ℕ) (spacing : ℝ) (i : ℕ), i < size →
      ((linearInit size spacing).x.getD i 0 = i * spacing ∧
        (linearInit size spacing).y.getD i 0 = 0)) ∧
    (linearInit 16 (1/2)).x =
      [0, 0.5, 1, 1.5, 2, 2.5, 3, 3.5, 4, 4.5, 5, 5.5, 6, 6.5, 7, 7.5] ∧
    (linearInit 32 1).x =
      [0, 1, 2, 3, 4, 5, 6, 7, 8, 9, 10, 11, 12, 13, 14, 15, 16, 17, 18,
        19, 20, 21, 22, 23, 24, 25, 26, 27, 28, 29, 30, 31] := by
  refine ⟨fun size spacing i h => ⟨?_, ?_⟩, ?_, ?_⟩
  · unfold linearInit
    exact range_map_getD size (fun i => (i : ℝ) * spacing) i h
  · simp [linearInit, List.getElem?_getD_replicate_default_eq]
  · norm_num [linearInit, List.range_succ]
  · norm_num [linearInit, List.range_succ]

/-- Witness for `linear_geometry_c9`: the pointwise clause applied to the
concrete input size 16, spacing 0.5, element index 3. -/
theorem linear_geometry_c9_witness :
    (3 < 16) ∧ (linearInit 16 (1/2)).x.getD 3 0 = 3 * (1/2) ∧
      (linearInit 16 (1/2)).y.getD 3 0 = 0 :=
  ⟨by norm_num, (linear_geometry_c9.1 16 (1/2) 3 (by norm_num)).1,
    (linear_geometry_c9.1 16 (1/2) 3 (by norm_num)).2⟩

/-- C8: `update_parameters` merges only the recognized keys into the
configuration (an absent key retains the previous value) and rebuilds
the geometry, so the resulting element coordinates are those of a
freshly constructed array with the merged parameters; an update naming
no recognized key leaves the whole state, in particular the `x` and `y`
coordinate lists, unchanged.  Stated for both `LinearArray` and
`RectArray`. -/
theorem update_parameters_c8 :
    (∀ (s : ℕ) (d : ℝ) (size? : Option ℕ) (spacing? : Option ℝ),
      (linearUpdateParameters (linearInit s d) size? spacing?).x =
          (linearInit (size?.getD s) (spacing?.getD d)).x ∧
        (linearUpdateParameters (linearInit s d) size? spacing?).y =
          (linearInit (size?.getD s) (spacing?.getD d)).y ∧
        linearUpdateParameters (linearInit s d) none none = linearInit s d) ∧
    (∀ (sx sy : ℕ) (dx dy : ℝ) (sx? sy? : Option ℕ) (dx? dy? : Option ℝ),
      (rectUpdateParameters (rectInit sx sy dx dy) sx? sy? dx? dy?).x =
          (rectInit (sx?.getD sx) (sy?.getD sy)
            (dx?.getD dx) (dy?.getD dy)).x ∧
        (rectUpdateParameters (rectInit sx sy dx dy) sx? sy? dx? dy?).y =
          (rectInit (sx?.getD sx) (sy?.getD sy)
            (dx?.getD dx) (dy?.getD dy)).y ∧
        rectUpdateParameters (rectInit sx sy dx dy) none none none none =
          rectInit sx sy dx dy) := by
  exact ⟨fun s d size? spacing? => ⟨rfl, rfl, rfl⟩,
    fun sx sy dx dy sx? sy? dx? dy? => ⟨rfl, rfl, rfl⟩⟩

/-! ## Taylor window synthesis (`taylor` in `antarray/lineararray.py`) -/

/-- `B = 10**(-level / 20)` from the `taylor` window routine. -/
def taylorB (level : ℝ) : ℝ := Real.rpow 10 (-level / 20)

/-- `A = np.log(B + np.sqrt(B**2 - 1)) / np.pi`. -/
def taylorA (level : ℝ) : ℝ :=
  Real.log (taylorB level + Real.sqrt (taylorB level ^ 2 - 1)) / Real.pi

/-- `s2 = nbar**2 / (A**2 + (nbar - 0.5)**2)`. -/
def taylorS2 (nbar : ℕ) (level : ℝ) : ℝ :=
  (nbar : ℝ) ^ 2 / (taylorA level ^ 2 + ((nbar : ℝ) - 0.5) ^ 2)

/-- `calc_Fm(m)`: the Taylor-window Fourier coefficient for
`m ∈ ma = np.arange(1, nbar)`; the denominator product runs over
`j ∈ ma` with `j ≠ m`. -/
def taylorFm (nbar : ℕ) (level : ℝ) (m : ℕ) : ℝ :=
  ((-1 : ℝ) ^ (m + 1) *
      ∏ j ∈ Finset.Ico 1 nbar,
        (1 - (m : ℝ) ^ 2 / taylorS2 nbar level /
          (taylorA level ^ 2 + ((j : ℝ) - 0.5) ^ 2))) /
    (2 * ∏ j ∈ (Finset.Ico 1 nbar).filter (fun j => j ≠ m),
      (1 - (m : ℝ) ^ 2 / (j : ℝ) ^ 2))

/-- `W(n) = 2 * np.dot(Fm, np.cos(2*np.pi*ma*(n - N/2 + 1/2)/N)) + 1`,
the unnormalized Taylor window sample, defined for a real-valued
argument `n` exactly as in the source. -/
def taylorW (N nbar : ℕ) (level : ℝ) (n : ℝ) : ℝ :=
  2 * ∑ m ∈ Finset.Ico 1 nbar,
      taylorFm nbar level m *
        Real.cos (2 * Real.pi * (m : ℝ) * (n - (N : ℝ) / 2 + 1 / 2) / (N : ℝ)) +
    1

/-- The `taylor(N, nbar, level)` window: samples `W(0), ..., W(N-1)`
multiplied by `scale = 1.0 / W((N - 1) / 2)` (the division `(N-1)/2`
here is Python float division on the real value of `N`). -/
def taylor (N nbar : ℕ) (level : ℝ) : List ℝ :=
  (List.range N).map
    (fun (n : ℕ) =>
      taylorW N nbar level (n : ℝ) *
        (1 / taylorW N nbar level (((N : ℝ) - 1) / 2)))

/-- C3: for every odd length `N` (with parameters for which the
normalizing divisor `W((N-1)/2)` is nonzero, the implicit validity
condition of the normalization step), the synthesized Taylor window has
center sample `1` at index `(N-1)/2`: the code divides every sample by
`W((N-1)/2)`, and for odd `N` the sample at index `(N-1)/2` is exactly
that value. -/
theorem taylor_center_c3 (N nbar : ℕ) (level : ℝ) (hN : Odd N)
    (hW : taylorW N nbar level (((N : ℝ) - 1) / 2) ≠ 0) :
    (taylor N nbar level).getD ((N - 1) / 2) 0 = 1 := by
  obtain ⟨k, hk⟩ := hN
  have hidx : (N - 1) / 2 = k := by omega
  have hlt : (N - 1) / 2 < N := by omega
  have hcast : ((((N : ℕ) - 1) / 2 : ℕ) : ℝ) = ((N : ℝ) - 1) / 2 := by
    subst hk
    rw [hidx]
    push_cast
    ring
  unfold taylor
  rw [range_map_getD N _ _ hlt, hcast]
  field_simp

/-- Witness for `taylor_center_c3` at `N = 5`, `nbar = 1`,
`level = -30`: with `nbar = 1` the coefficient range `ma` is empty, so
`W ≡ 1` and the hypotheses evaluate concretely. -/
theorem taylor_center_c3_witness :
    Odd 5 ∧ taylorW 5 1 (-30) (((5 : ℝ) - 1) / 2) ≠ 0 ∧
      (taylor 5 1 (-30)).getD 2 0 = 1 := by
  have h1 : Odd 5 := by decide
  have h2 : taylorW 5 1 (-30) (((5 : ℝ) - 1) / 2) ≠ 0 := by
    unfold taylorW
    norm_num
  exact ⟨h1, h2, taylor_center_c3 5 1 (-30) h1 h2⟩

/-! ## Direct linear-array evaluator (`LinearArray.get_pattern`) -/

/-- The linear-array `x` coordinates as a function of the element index
(`np.arange(0, size, 1) * spacing`). -/
def linX (size : ℕ) (spacing : ℝ) : ℕ → ℝ := fun i => (i : ℝ) * spacing

/-- `LinearArray.square_win`: the Square window is the constant `1`
(broadcast scalar in the source). -/
def squareWin : ℕ → ℝ := fun _ => 1

/-- The pre-normalization weight vector of `LinearArray.get_pattern`:
`np.exp(-1j * 2 * np.pi * self.x * np.sin(beam_loc/180*np.pi)) * window`,
for an arbitrary real window vector `win` (covering every entry of
`window_dict`). -/
def linWeightPre (x : ℕ → ℝ) (win : ℕ → ℝ) (beamLoc : ℝ) : ℕ → ℂ :=
  fun k =>
    Complex.exp (-Complex.I *
        ((2 * Real.pi * (x k * Real.sin (deg2rad beamLoc)) : ℝ) : ℂ)) *
      ((win k : ℝ) : ℂ)

/-- `np.sum(np.abs(weight))`: the L1 norm of the first `size` entries of
a complex vector. -/
def l1norm (size : ℕ) (w : ℕ → ℂ) : ℝ :=
  ∑ k ∈ Finset.range size, Complex.abs (w k)

/-- The weight vector actually used by `LinearArray.get_pattern`:
`weight = weight / np.sum(np.abs(weight))`. -/
def linWeight (size : ℕ) (x : ℕ → ℝ) (win : ℕ → ℝ) (beamLoc : ℝ) :
    ℕ → ℂ :=
  fun k =>
    linWeightPre x win beamLoc k /
      ((l1norm size (linWeightPre x win beamLoc) : ℝ) : ℂ)

/-- `AF = np.matmul(weight, A)` of `LinearArray.get_pattern` evaluated at
one sample angle `θ` (degrees): the inner product of the normalized
weights with the column `A[k] = np.exp(1j*2*np.pi*x_k*np.sin(θ/180*π))`. -/
def linAF (size : ℕ) (x : ℕ → ℝ) (win : ℕ → ℝ) (beamLoc θ : ℝ) : ℂ :=
  ∑ k ∈ Finset.range size,
    linWeight size x win beamLoc k *
      Complex.exp (Complex.I *
        ((2 * Real.pi * (x k * Real.sin (deg2rad θ)) : ℝ) : ℂ))

/-! Shared helper lemmas about L1 normalization and phase sums. -/

theorem abs_exp_I_ofReal (r : ℝ) :
    Complex.abs (Complex.exp (Complex.I * (r : ℂ))) = 1 := by
  simp [Complex.abs_exp]

theorem abs_exp_neg_I_ofReal (r : ℝ) :
    Complex.abs (Complex.exp (-Complex.I * (r : ℂ))) = 1 := by
  simp [Complex.abs_exp]

theorem l1norm_div_self {ι : Type} (s : Finset ι) (f : ι → ℂ)
    (h : (∑ i ∈ s, Complex.abs (f i)) ≠ 0) :
    ∑ i ∈ s, Complex.abs (f i / (((∑ j ∈ s, Complex.abs (f j) : ℝ)) : ℂ)) =
      1 := by
  have hnn : (0 : ℝ) ≤ ∑ j ∈ s, Complex.abs (f j) :=
    Finset.sum_nonneg fun j _ => AbsoluteValue.nonneg _ _
  have hstep : ∀ i ∈ s,
      Complex.abs (f i / (((∑ j ∈ s, Complex.abs (f j) : ℝ)) : ℂ)) =
        Complex.abs (f i) / (∑ j ∈ s, Complex.abs (f j)) := by
    intro i _
    rw [map_div₀, Complex.abs_ofReal, abs_of_nonneg hnn]
  rw [Finset.sum_congr rfl hstep, ← Finset.sum_div]
  exact div_self h

theorem l1norm_linWeight (size : ℕ) (x win : ℕ → ℝ) (beamLoc : ℝ)
    (h : l1norm size (linWeightPre x win beamLoc) ≠ 0) :
    l1norm size (linWeight size x win beamLoc) = 1 :=
  l1norm_div_self (Finset.range size) (linWeightPre x win beamLoc) h

theorem abs_linAF_le (size : ℕ) (x win : ℕ → ℝ) (beamLoc θ : ℝ) :
    Complex.abs (linAF size x win beamLoc θ) ≤
      l1norm size (linWeight size x win beamLoc) := by
  refine le_trans (Complex.abs.sum_le _ _) ?_
  apply le_of_eq
  apply Finset.sum_congr rfl
  intro k _
  rw [map_mul, abs_exp_I_ofReal, mul_one]

theorem abs_linAF_le_one (size : ℕ) (x win : ℕ → ℝ) (beamLoc θ : ℝ)
    (h : l1norm size (linWeightPre x win beamLoc) ≠ 0) :
    Complex.abs (linAF size x win beamLoc θ) ≤ 1 := by
  calc Complex.abs (linAF size x win beamLoc θ) ≤
      l1norm size (linWeight size x win beamLoc) :=
        abs_linAF_le size x win beamLoc θ
    _ = 1 := l1norm_linWeight size x win beamLoc h

/-- C10: for every steering angle, window vector (covering each window
kind of `window_dict`), and sample angle, the magnitude of the array
factor returned by `LinearArray.get_pattern` is at most 1, provided the
pre-normalization weight vector has nonzero L1 norm (so the
normalization `weight / np.sum(np.abs(weight))` is well defined): after
L1 normalization, the triangle inequality bounds
`|Σ_k w_k·exp(i·2π·x_k·sin θ)|` by `Σ_k |w_k| = 1`. -/
theorem lin_af_bounded_c10 (size : ℕ) (x win : ℕ → ℝ) (beamLoc θ : ℝ)
    (h : l1norm size (linWeightPre x win beamLoc) ≠ 0) :
    Complex.abs (linAF size x win beamLoc θ) ≤ 1 :=
  abs_linAF_le_one size x win beamLoc θ h

/-- Witness for `lin_af_bounded_c10`: a 1-element array with unit
window, zero steering, sample angle 0; the nonzero-norm hypothesis
evaluates concretely. -/
theorem lin_af_bounded_c10_witness :
    l1norm 1 (linWeightPre (linX 1 1) squareWin 0) ≠ 0 ∧
      Complex.abs (linAF 1 (linX 1 1) squareWin 0 0) ≤ 1 := by
  have h : l1norm 1 (linWeightPre (linX 1 1) squareWin 0) ≠ 0 := by
    unfold l1norm linWeightPre linX squareWin
    simp [Complex.abs_exp]
  exact ⟨h, lin_af_bounded_c10 1 (linX 1 1) squareWin 0 0 h⟩

theorem sin_deg2rad_zero : Real.sin (deg2rad 0) = 0 := by
  simp [deg2rad]

theorem linWeightPre_square_zero (size : ℕ) (spacing : ℝ) (k : ℕ) :
    linWeightPre (linX size spacing) squareWin 0 k = 1 := by
  unfold linWeightPre squareWin
  rw [sin_deg2rad_zero]
  norm_num

theorem l1norm_square_zero (size : ℕ) (spacing : ℝ) :
    l1norm size (linWeightPre (linX size spacing) squareWin 0) = size := by
  unfold l1norm
  rw [Finset.sum_congr rfl
    (fun k _ => by rw [linWeightPre_square_zero size spacing k])]
  simp

theorem linWeight_square_zero (size : ℕ) (spacing : ℝ) (k : ℕ) :
    linWeight size (linX size spacing) squareWin 0 k = 1 / (size : ℂ) := by
  unfold linWeight
  rw [linWeightPre_square_zero, l1norm_square_zero]
  push_cast
  rw [one_div]

/-- C7: for every positive array size, `LinearArray.get_pattern` with
the Square window and beam steering angle 0 produces a weight vector
whose entries all have magnitude exactly `1/size`, and the array factor
at sample angle `θ = 0` equals exactly `1`, which is the maximum of its
magnitude over any sample grid (the magnitude is at most 1 at every
sample angle). -/
theorem lin_square_unsteered_c7 (size : ℕ) (spacing : ℝ) (h : 0 < size) :
    (∀ k : Fin size,
      Complex.abs (linWeight size (linX size spacing) squareWin 0 k) =
        1 / size) ∧
    linAF size (linX size spacing) squareWin 0 0 = 1 ∧
    ∀ θ : ℝ,
      Complex.abs (linAF size (linX size spacing) squareWin 0 θ) ≤ 1 := by
  have hsz : ((size : ℂ)) ≠ 0 := by
    exact_mod_cast Nat.cast_ne_zero.mpr (Nat.pos_iff_ne_zero.mp h)
  refine ⟨?_, ?_, ?_⟩
  · intro k
    rw [linWeight_square_zero]
    rw [map_div₀]
    simp
  · unfold linAF
    have hterm : ∀ k ∈ Finset.range size,
        linWeight size (linX size spacing) squareWin 0 k *
          Complex.exp (Complex.I *
            ((2 * Real.pi * (linX size spacing k * Real.sin (deg2rad 0)) :
              ℝ) : ℂ)) = 1 / (size : ℂ) := by
      intro k _
      rw [linWeight_square_zero, sin_deg2rad_zero]
      norm_num
    rw [Finset.sum_congr rfl hterm, Finset.sum_const, Finset.card_range]
    rw [nsmul_eq_mul, mul_one_div, div_self hsz]
  · intro θ
    apply abs_linAF_le_one
    rw [l1norm_square_zero]
    exact_mod_cast Nat.cast_ne_zero.mpr (Nat.pos_iff_ne_zero.mp h)

/-- Witness for `lin_square_unsteered_c7` at size 4, spacing 0.5,
weight entry 2. -/
theorem lin_square_unsteered_c7_witness :
    (0 < 4) ∧
      Complex.abs (linWeight 4 (linX 4 (1/2)) squareWin 0 (2 : Fin 4)) =
        1 / 4 ∧
      linAF 4 (linX 4 (1/2)) squareWin 0 0 = 1 ∧
      Complex.abs (linAF 4 (linX 4 (1/2)) squareWin 0 37) ≤ 1 := by
  have h4 : (0:ℕ) < 4 := by norm_num
  refine ⟨h4, ?_, (lin_square_unsteered_c7 4 (1/2) h4).2.1,
    (lin_square_unsteered_c7 4 (1/2) h4).2.2 37⟩
  have := (lin_square_unsteered_c7 4 (1/2) h4).1 (2 : Fin 4)
  simpa using this

/-! ## `AntennaArray.get_pattern` (`antarray/antennaarray.py`)

The packaged evaluator: `u = sin(azimuth)`, `v = sin(elevation)`, and
the array factor is accumulated by the loop
`AF += np.exp(-1j*2*np.pi*(x[idx]*u + y[idx]*v)) * weight[idx]`, with
the caller-supplied weight used as-is (default `np.ones(size)`). -/

/-- The weight vector used by `AntennaArray.get_pattern`: the argument
itself when supplied, otherwise `np.ones(size)` — the source applies no
normalization to it. -/
def antennaWeight (size : ℕ) (w? : Option (ℕ → ℂ)) : ℕ → ℂ :=
  w?.getD (fun _ => 1)

/-- The accumulation loop of `AntennaArray.get_pattern`
(`antarray/antennaarray.py`, `for idx in range(0, size)`). -/
def sumAFdeg (x y : ℕ → ℝ) (w : ℕ → ℂ) (u v : ℝ) : ℕ → ℂ
  | 0 => 0
  | n + 1 =>
    sumAFdeg x y w u v n +
      Complex.exp (-Complex.I *
          ((2 * Real.pi * (x n * u + y n * v) : ℝ) : ℂ)) * w n

/-- `AntennaArray.get_pattern(azimuth, elevation, weight)` evaluated at
one grid point (degrees): `u = sin(az·π/180)`, `v = sin(el·π/180)`. -/
def antennaGetPattern (size : ℕ) (x y : ℕ → ℝ) (w? : Option (ℕ → ℂ))
    (az el : ℝ) : ℂ :=
  sumAFdeg x y (antennaWeight size w?)
    (Real.sin (deg2rad az)) (Real.sin (deg2rad el)) size

theorem sumAFdeg_eq_sum (x y : ℕ → ℝ) (w : ℕ → ℂ) (u v : ℝ) (n : ℕ) :
    sumAFdeg x y w u v n =
      ∑ k ∈ Finset.range n,
        Complex.exp (-Complex.I *
            ((2 * Real.pi * (x k * u + y k * v) : ℝ) : ℂ)) * w k := by
  induction n with
  | zero => simp [sumAFdeg]
  | succ n ih => rw [Finset.sum_range_succ, ← ih]; rfl

theorem abs_sumAFdeg_le (x y : ℕ → ℝ) (w : ℕ → ℂ) (u v : ℝ) (n : ℕ) :
    Complex.abs (sumAFdeg x y w u v n) ≤
      ∑ k ∈ Finset.range n, Complex.abs (w k) := by
  rw [sumAFdeg_eq_sum]
  refine le_trans (Complex.abs.sum_le _ _) ?_
  apply le_of_eq
  apply Finset.sum_congr rfl
  intro k _
  rw [map_mul, abs_exp_neg_I_ofReal, one_mul]

/-! The two-ring 8-element test geometry and its conjugate-matched
weights (`tests/test_antennaarray.py`). -/

/-- `x = np.array([0, 0.5, 1, 1.5, 0, 0.5, 1, 1.5])`. -/
def x8 : ℕ → ℝ :=
  fun n => ([0, 1/2, 1, 3/2, 0, 1/2, 1, 3/2] : List ℝ).getD n 0

/-- `y = np.array([0, 0, 0, 0, 0.5, 0.5, 0.5, 0.5])`. -/
def y8 : ℕ → ℝ :=
  fun n => ([0, 0, 0, 0, 1/2, 1/2, 1/2, 1/2] : List ℝ).getD n 0

/-- `weight = np.array([.125, .125j, -.125, -.125j, .125, .125j, -.125,
-.125j])`. -/
def w8 : ℕ → ℂ :=
  fun n =>
    ([1/8, Complex.I/8, -(1/8), -(Complex.I/8),
      1/8, Complex.I/8, -(1/8), -(Complex.I/8)] : List ℂ).getD n 0

/-- The angle grid `np.arange(-90, 90, 1)`: one-degree steps covering
`[-90, 90)`. -/
def degGrid : List ℝ := (List.range 180).map (fun (i : ℕ) => (i : ℝ) - 90)

theorem exp_ofReal_mul_I (r : ℝ) :
    Complex.exp ((r : ℂ) * Complex.I) =
      ((Real.cos r : ℝ) : ℂ) + ((Real.sin r : ℝ) : ℂ) * Complex.I := by
  rw [Complex.exp_mul_I, Complex.ofReal_cos, Complex.ofReal_sin]

theorem exp_neg_I_ofReal (r : ℝ) :
    Complex.exp (-Complex.I * (r : ℂ)) =
      ((Real.cos r : ℝ) : ℂ) - ((Real.sin r : ℝ) : ℂ) * Complex.I := by
  have h : -Complex.I * (r : ℂ) = ((-r : ℝ) : ℂ) * Complex.I := by
    push_cast
    ring
  rw [h, exp_ofReal_mul_I, Real.cos_neg, Real.sin_neg]
  push_cast
  ring

theorem cos_three_pi_div_two : Real.cos (3 * Real.pi / 2) = 0 := by
  rw [show (3 : ℝ) * Real.pi / 2 = Real.pi + Real.pi / 2 by ring]
  simp [Real.cos_add]

theorem sin_three_pi_div_two : Real.sin (3 * Real.pi / 2) = -1 := by
  rw [show (3 : ℝ) * Real.pi / 2 = Real.pi + Real.pi / 2 by ring]
  simp [Real.sin_add]

theorem sin_deg2rad_thirty : Real.sin (deg2rad 30) = 1 / 2 := by
  rw [show deg2rad 30 = Real.pi / 6 by unfold deg2rad; ring]
  exact Real.sin_pi_div_six

theorem w8_abs_sum : ∑ k ∈ Finset.range 8, Complex.abs (w8 k) = 1 := by
  simp only [Finset.sum_range_succ, Finset.sum_range_zero]
  rw [show w8 0 = 1/8 from rfl, show w8 1 = Complex.I/8 from rfl,
    show w8 2 = -(1/8) from rfl, show w8 3 = -(Complex.I/8) from rfl,
    show w8 4 = 1/8 from rfl, show w8 5 = Complex.I/8 from rfl,
    show w8 6 = -(1/8) from rfl, show w8 7 = -(Complex.I/8) from rfl]
  simp
  norm_num

/-- C1: for the `AntennaArray` evaluator on the 8-element two-ring
geometry `x8`, `y8` with the conjugate-matched weights `w8`, the
magnitude of the array factor is at most 1 in every direction (hence
over the whole `[-90,90)` 1-degree grid), it equals exactly 1 at
azimuth 30°, elevation 0°, and that sample lies on the grid — so the
maximum of `|array_factor|` over the grid is exactly 1, attained at
azimuth = 30°, elevation = 0°. -/
theorem antenna_peak_c1 :
    (∀ az el : ℝ,
      Complex.abs (antennaGetPattern 8 x8 y8 (some w8) az el) ≤ 1) ∧
    antennaGetPattern 8 x8 y8 (some w8) 30 0 = 1 ∧
    (30 : ℝ) ∈ degGrid ∧ (0 : ℝ) ∈ degGrid := by
  refine ⟨?_, ?_, ?_, ?_⟩
  · intro az el
    unfold antennaGetPattern
    calc Complex.abs (sumAFdeg x8 y8 (antennaWeight 8 (some w8))
        (Real.sin (deg2rad az)) (Real.sin (deg2rad el)) 8) ≤
          ∑ k ∈ Finset.range 8,
            Complex.abs (antennaWeight 8 (some w8) k) :=
        abs_sumAFdeg_le _ _ _ _ _ _
      _ = 1 := w8_abs_sum
  · unfold antennaGetPattern antennaWeight
    rw [Option.getD_some, sumAFdeg_eq_sum, sin_deg2rad_thirty,
      sin_deg2rad_zero]
    simp only [Finset.sum_range_succ, Finset.sum_range_zero]
    rw [show x8 0 = 0 from rfl, show x8 1 = 1/2 from rfl,
      show x8 2 = 1 from rfl, show x8 3 = 3/2 from rfl,
      show x8 4 = 0 from rfl, show x8 5 = 1/2 from rfl,
      show x8 6 = 1 from rfl, show x8 7 = 3/2 from rfl,
      show y8 0 = 0 from rfl, show y8 1 = 0 from rfl,
      show y8 2 = 0 from rfl, show y8 3 = 0 from rfl,
      show y8 4 = 1/2 from rfl, show y8 5 = 1/2 from rfl,
      show y8 6 = 1/2 from rfl, show y8 7 = 1/2 from rfl,
      show w8 0 = 1/8 from rfl, show w8 1 = Complex.I/8 from rfl,
      show w8 2 = -(1/8) from rfl, show w8 3 = -(Complex.I/8) from rfl,
      show w8 4 = 1/8 from rfl, show w8 5 = Complex.I/8 from rfl,
      show w8 6 = -(1/8) from rfl, show w8 7 = -(Complex.I/8) from rfl]
    simp only [exp_neg_I_ofReal]
    rw [show (2 * Real.pi * ((0:ℝ) * (1/2) + 0 * 0) : ℝ) = 0 by ring,
      show (2 * Real.pi * ((1/2:ℝ) * (1/2) + 0 * 0) : ℝ) = Real.pi / 2
        by ring,
      show (2 * Real.pi * ((1:ℝ) * (1/2) + 0 * 0) : ℝ) = Real.pi by ring,
      show (2 * Real.pi * ((3/2:ℝ) * (1/2) + 0 * 0) : ℝ) =
        3 * Real.pi / 2 by ring,
      show (2 * Real.pi * ((0:ℝ) * (1/2) + 1/2 * 0) : ℝ) = 0 by ring,
      show (2 * Real.pi * ((1/2:ℝ) * (1/2) + 1/2 * 0) : ℝ) = Real.pi / 2
        by ring,
      show (2 * Real.pi * ((1:ℝ) * (1/2) + 1/2 * 0) : ℝ) = Real.pi
        by ring,
      show (2 * Real.pi * ((3/2:ℝ) * (1/2) + 1/2 * 0) : ℝ) =
        3 * Real.pi / 2 by ring]
    rw [Real.cos_zero, Real.sin_zero, Real.cos_pi_div_two,
      Real.sin_pi_div_two, Real.cos_pi, Real.sin_pi,
      cos_three_pi_div_two, sin_three_pi_div_two]
    push_cast
    ring_nf
    rw [Complex.I_sq]
    ring
  · exact List.mem_map.mpr ⟨120, by simp, by norm_num⟩
  · exact List.mem_map.mpr ⟨90, by simp, by norm_num⟩

/-! ## `RectArray.get_pattern` weight grid (`antarray/rectarray.py`) -/

/-- The separable 2-D taper of `RectArray.get_pattern`: the outer
product `matmul(transpose([window_x]), [window_y])` of the two axis
windows. -/
def rectWindow (winx winy : ℕ → ℝ) : ℕ → ℕ → ℝ := fun i j => winx i * winy j

/-- The pre-normalization weight grid of `RectArray.get_pattern`:
`np.exp(1j*2*np.pi*(x_grid*sin(beam_az·π/180) + y_grid*sin(beam_el·π/180)))
* window`, where `x_grid[i,j] = i*spacingx` and `y_grid[i,j] = j*spacingy`. -/
def rectWeightPre (dx dy beamAz beamEl : ℝ) (winx winy : ℕ → ℝ) :
    ℕ → ℕ → ℂ :=
  fun i j =>
    Complex.exp (Complex.I *
        ((2 * Real.pi *
          ((i : ℝ) * dx * Real.sin (deg2rad beamAz) +
            (j : ℝ) * dy * Real.sin (deg2rad beamEl)) : ℝ) : ℂ)) *
      ((rectWindow winx winy i j : ℝ) : ℂ)

/-- `np.sum(np.abs(weight))` over the whole `sizex × sizey` grid. -/
def rectL1 (sx sy : ℕ) (w : ℕ → ℕ → ℂ) : ℝ :=
  ∑ p ∈ Finset.range sx ×ˢ Finset.range sy, Complex.abs (w p.1 p.2)

/-- The weight grid actually used by `RectArray.get_pattern`:
`weight = weight / np.sum(np.abs(weight))`. -/
def rectWeight (sx sy : ℕ) (dx dy beamAz beamEl : ℝ)
    (winx winy : ℕ → ℝ) : ℕ → ℕ → ℂ :=
  fun i j =>
    rectWeightPre dx dy beamAz beamEl winx winy i j /
      ((rectL1 sx sy (rectWeightPre dx dy beamAz beamEl winx winy) : ℝ) : ℂ)

theorem rectL1_rectWeight (sx sy : ℕ) (dx dy beamAz beamEl : ℝ)
    (winx winy : ℕ → ℝ)
    (h : rectL1 sx sy (rectWeightPre dx dy beamAz beamEl winx winy) ≠ 0) :
    rectL1 sx sy (rectWeight sx sy dx dy beamAz beamEl winx winy) = 1 :=
  l1norm_div_self (Finset.range sx ×ˢ Finset.range sy)
    (fun p => rectWeightPre dx dy beamAz beamEl winx winy p.1 p.2) h

/-- C2 counterexample: `AntennaArray.get_pattern` does not re-normalize
the weight vector it uses.  For a 2-element array at the origin with the
default weight (`np.ones(2)`), the sum of the magnitudes of the weight
entries actually applied is 2, not 1, and the resulting array factor at
azimuth 0, elevation 0 is 2, which a weight vector of unit L1 norm could
never produce. -/
theorem antenna_no_normalization_c2_cex :
    (∑ k ∈ Finset.range 2, Complex.abs (antennaWeight 2 none k)) = 2 ∧
      (2 : ℝ) ≠ 1 ∧
      antennaGetPattern 2 (fun _ => 0) (fun _ => 0) none 0 0 = 2 := by
  refine ⟨?_, by norm_num, ?_⟩
  · simp [antennaWeight]
  · unfold antennaGetPattern antennaWeight
    rw [Option.getD_none, sumAFdeg_eq_sum]
    simp only [Finset.sum_range_succ, Finset.sum_range_zero]
    norm_num

/-- C2 amended: only `LinearArray.get_pattern` and
`RectArray.get_pattern` re-normalize the weight vector so that the sum
of the magnitudes of its entries equals 1 before it is applied (whenever
the pre-normalization weight has nonzero L1 norm, i.e. the division in
the source is well defined); `AntennaArray.get_pattern` applies the
caller-supplied weight (default all-ones) without re-normalization. -/
theorem weight_normalization_c2_amended :
    (∀ (size : ℕ) (x win : ℕ → ℝ) (beamLoc : ℝ),
      l1norm size (linWeightPre x win beamLoc) ≠ 0 →
        l1norm size (linWeight size x win beamLoc) = 1) ∧
    (∀ (sx sy : ℕ) (dx dy beamAz beamEl : ℝ) (winx winy : ℕ → ℝ),
      rectL1 sx sy (rectWeightPre dx dy beamAz beamEl winx winy) ≠ 0 →
        rectL1 sx sy (rectWeight sx sy dx dy beamAz beamEl winx winy) = 1) ∧
    (∀ (size : ℕ) (w : ℕ → ℂ), antennaWeight size (some w) = w) := by
  exact ⟨fun size x win beamLoc h => l1norm_linWeight size x win beamLoc h,
    fun sx sy dx dy bA bE wx wy h => rectL1_rectWeight sx sy dx dy bA bE wx wy h,
    fun size w => rfl⟩

/-- Witness for `weight_normalization_c2_amended`: concrete instances of
both normalization clauses (size-2 linear array with unit window and
zero steering; 1×1 rectangular array with unit windows and zero
steering), with the nonzero-norm hypotheses discharged concretely. -/
theorem weight_normalization_c2_amended_witness :
    l1norm 2 (linWeightPre (linX 2 (1/2)) squareWin 0) ≠ 0 ∧
      l1norm 2 (linWeight 2 (linX 2 (1/2)) squareWin 0) = 1 ∧
      rectL1 1 1 (rectWeightPre (1/2) (1/2) 0 0 squareWin squareWin) ≠ 0 ∧
      rectL1 1 1 (rectWeight 1 1 (1/2) (1/2) 0 0 squareWin squareWin) = 1 := by
  have h1 : l1norm 2 (linWeightPre (linX 2 (1/2)) squareWin 0) ≠ 0 := by
    rw [l1norm_square_zero]
    norm_num
  have h2 : rectL1 1 1 (rectWeightPre (1/2) (1/2) 0 0 squareWin squareWin) ≠
      0 := by
    unfold rectL1 rectWeightPre rectWindow squareWin
    rw [sin_deg2rad_zero]
    simp [Complex.abs_exp]
  exact ⟨h1, weight_normalization_c2_amended.1 2 (linX 2 (1/2)) squareWin 0 h1,
    h2, weight_normalization_c2_amended.2.1 1 1 (1/2) (1/2) 0 0
      squareWin squareWin h2⟩

/-! ## Legacy `AntennaArray.get_pattern` with `polar` (`antennaarray.py`)

The top-level variant: in polar mode it forms the directional cosines
`u = sin(θ)cos(φ)`, `v = sin(θ)sin(φ)` from the angle grids (degrees);
with `polar=False` the inputs are used as raw directional cosines.  The
array factor is accumulated with the `+1j` sign:
`AF += np.exp(1j*2*np.pi*(x[idx]*u + y[idx]*v)) * weight[idx]`. -/

/-- The `if polar:` grid transformation of the legacy
`AntennaArray.get_pattern`, at one grid point. -/
def uvGrid (polar : Bool) (θ φ : ℝ) : ℝ × ℝ :=
  if polar then
    (Real.sin (deg2rad θ) * Real.cos (deg2rad φ),
      Real.sin (deg2rad θ) * Real.sin (deg2rad φ))
  else (θ, φ)

/-- The accumulation loop of the legacy evaluator (`+1j` sign). -/
def sumAFuv (x y : ℕ → ℝ) (w : ℕ → ℂ) (u v : ℝ) : ℕ → ℂ
  | 0 => 0
  | n + 1 =>
    sumAFuv x y w u v n +
      Complex.exp (Complex.I *
          ((2 * Real.pi * (x n * u + y n * v) : ℝ) : ℂ)) * w n

/-- The legacy `AntennaArray.get_pattern(u, v, weight, polar)` at one
grid point; returns the computed `(u, v)` pair and the array factor, as
the source's result dict does. -/
def antennaGetPatternUV (size : ℕ) (x y : ℕ → ℝ) (w? : Option (ℕ → ℂ))
    (polar : Bool) (θ φ : ℝ) : ℝ × ℝ × ℂ :=
  ((uvGrid polar θ φ).1, (uvGrid polar θ φ).2,
    sumAFuv x y (antennaWeight size w?)
      (uvGrid polar θ φ).1 (uvGrid polar θ φ).2 size)

theorem sumAFuv_eq_sum (x y : ℕ → ℝ) (w : ℕ → ℂ) (u v : ℝ) (n : ℕ) :
    sumAFuv x y w u v n =
      ∑ k ∈ Finset.range n,
        w k * Complex.exp (Complex.I *
          ((2 * Real.pi * (x k * u + y k * v) : ℝ) : ℂ)) := by
  induction n with
  | zero => simp [sumAFuv]
  | succ n ih =>
    rw [Finset.sum_range_succ, ← ih, mul_comm (w n)]
    rfl

/-- C4: the legacy direction-cosine evaluator computes
`u = sin(θ)cos(φ)`, `v = sin(θ)sin(φ)` in polar mode and passes `u`, `v`
through unchanged when `polar = False`; in both modes the array factor
at the grid point is the sum over elements `k` of
`weight_k · exp(+i·2π·(x_k·u + y_k·v))` (the source's consistent `+i`
sign). -/
theorem uv_evaluator_c4 :
    ∀ (size : ℕ) (x y : ℕ → ℝ) (w? : Option (ℕ → ℂ)) (θ φ : ℝ),
      (antennaGetPatternUV size x y w? true θ φ =
        (Real.sin (deg2rad θ) * Real.cos (deg2rad φ),
          Real.sin (deg2rad θ) * Real.sin (deg2rad φ),
          ∑ k ∈ Finset.range size,
            antennaWeight size w? k *
              Complex.exp (Complex.I *
                ((2 * Real.pi *
                  (x k * (Real.sin (deg2rad θ) * Real.cos (deg2rad φ)) +
                    y k * (Real.sin (deg2rad θ) * Real.sin (deg2rad φ))) :
                  ℝ) : ℂ)))) ∧
      (antennaGetPatternUV size x y w? false θ φ =
        (θ, φ,
          ∑ k ∈ Finset.range size,
            antennaWeight size w? k *
              Complex.exp (Complex.I *
                ((2 * Real.pi * (x k * θ + y k * φ) : ℝ) : ℂ)))) := by
  intro size x y w? θ φ
  constructor
  · unfold antennaGetPatternUV uvGrid
    simp only [if_true]
    rw [sumAFuv_eq_sum]
  · unfold antennaGetPatternUV uvGrid
    simp only [Bool.false_eq_true, if_false]
    rw [sumAFuv_eq_sum]

/-! ## FFT beamformer of `RectArray.get_pattern` (`antarray/rectarray.py`)

The `xy = np.ones((sizex, sizey))` factor multiplying `weight` before
each FFT is the multiplicative identity and is dropped from the
embedding. -/

/-- `int(np.ceil(spacing - 0.5)) * 2 + 1`: the grating-lobe replica
count for one axis. -/
def tileCount (spacing : ℝ) : ℤ := Int.ceil (spacing - 0.5) * 2 + 1

/-- `np.linspace(a, b, num)`: `num` evenly spaced samples from `a` to
`b` inclusive (a single sample is `[a]`). -/
def npLinspace (a b : ℝ) (num : ℕ) : List ℝ :=
  match num with
  | 0 => []
  | 1 => [a]
  | _ =>
    (List.range num).map
      (fun (i : ℕ) => a + (b - a) * (i : ℝ) / ((num : ℝ) - 1))

/-- `0.5 * np.linspace(-tile, tile, nfft*tile) / spacing`: the
directional-cosine axis including grating-lobe replicas. -/
def kAxis (spacing : ℝ) (nfft : ℕ) : List ℝ :=
  (npLinspace (-((tileCount spacing : ℤ) : ℝ)) ((tileCount spacing : ℤ) : ℝ)
      (nfft * (tileCount spacing).toNat)).map
    (fun v => 0.5 * v / spacing)

/-- One output coefficient of `np.fft.fft(a, n)` for an input sequence
of length `len` (zero-padded, or truncated, to `n` points):
`A_k = Σ_p a_p · exp(-2πi·p·k/n)`. -/
def npFFT (n len : ℕ) (a : ℕ → ℂ) (k : ℕ) : ℂ :=
  ∑ p ∈ Finset.range (min len n),
    a p * Complex.exp (-(2 * (Real.pi : ℂ) * Complex.I * (p : ℂ) * (k : ℂ)) /
      (n : ℂ))

/-- Index map of `np.fft.fftshift` along an axis of length `n`:
`shifted[i] = original[(i + n - n//2) % n]`. -/
def fftshiftIdx (n i : ℕ) : ℕ := (i + (n - n / 2)) % n

/-- Result of a one-axis FFT cut of `RectArray.get_pattern`: the cropped
array factor, the angle axis recovered by `arcsin` from the retained
directional cosines, and the scalar plot angle of the contracted axis. -/
structure RectCut where
  af : List ℂ
  angles : List ℝ
  other : ℝ

/-- The azimuth-only branch (`nfft_el <= 1 and nfft_az > 1`) of
`RectArray.get_pattern`, the elevation plot angle already resolved
(`plot_el` defaulting to `beam_el`):
`A = fftshift(fft(xy*weight, nfft_az, axis=0), axes=0)` is contracted
against the elevation steering vector
`exp(-1j·2π·y·sin(el·π/180))`, tiled `tilex` times, and cropped to the
samples with `k_az ∈ [-1, 1]`; `azimuth = arcsin(k_az)/π*180`. -/
def rectAzOnly (sx sy : ℕ) (dx dy : ℝ) (nfft : ℕ) (w : ℕ → ℕ → ℂ)
    (el : ℝ) : RectCut :=
  let A : ℕ → ℕ → ℂ :=
    fun k j => npFFT nfft sx (fun p => w p j) (fftshiftIdx nfft k)
  let pw : ℕ → ℂ := fun j =>
    Complex.exp (-Complex.I *
      ((2 * Real.pi * ((j : ℝ) * dy * Real.sin (deg2rad el)) : ℝ) : ℂ))
  let AF0 : ℕ → ℂ := fun k => ∑ j ∈ Finset.range sy, A k j * pw j
  let m := nfft * (tileCount dx).toNat
  let ks := kAxis dx nfft
  let kept := (List.range m).filter
    (fun i => decide (-1 ≤ ks.getD i 0 ∧ ks.getD i 0 ≤ 1))
  { af := kept.map (fun i => AF0 (i % nfft))
    angles := kept.map (fun i => Real.arcsin (ks.getD i 0) / Real.pi * 180)
    other := el }

/-- The elevation-only branch (`nfft_az <= 1 and nfft_el > 1`) of
`RectArray.get_pattern` in `antarray/rectarray.py`, the azimuth plot
angle already resolved (`plot_az` defaulting to `beam_az`):
`A = fftshift(fft(xy*weight, nfft_el, axis=1), axes=1)`, contracted as
`matmul(transpose(A), transpose(plot_weight))` against the azimuth
steering vector, tiled `tiley` times, and cropped to `k_el ∈ [-1, 1]`;
`elevation = arcsin(k_el)/π*180`. -/
def rectElOnly (sx sy : ℕ) (dx dy : ℝ) (nfft : ℕ) (w : ℕ → ℕ → ℂ)
    (az : ℝ) : RectCut :=
  let A : ℕ → ℕ → ℂ :=
    fun j k => npFFT nfft sy (fun q => w j q) (fftshiftIdx nfft k)
  let pw : ℕ → ℂ := fun j =>
    Complex.exp (-Complex.I *
      ((2 * Real.pi * ((j : ℝ) * dx * Real.sin (deg2rad az)) : ℝ) : ℂ))
  let AF0 : ℕ → ℂ := fun k => ∑ j ∈ Finset.range sx, A j k * pw j
  let m := nfft * (tileCount dy).toNat
  let ks := kAxis dy nfft
  let kept := (List.range m).filter
    (fun i => decide (-1 ≤ ks.getD i 0 ∧ ks.getD i 0 ≤ 1))
  { af := kept.map (fun i => AF0 (i % nfft))
    angles := kept.map (fun i => Real.arcsin (ks.getD i 0) / Real.pi * 180)
    other := az }

/-- The full 2-D branch (`nfft_az > 1 and nfft_el > 1`):
`AF = fftshift(fft2(xy*weight, (nfft_az, nfft_el)))`, tiled by
`(tilex, tiley)` and cropped along both axes to the visible region. -/
def rectFull2D (sx sy : ℕ) (dx dy : ℝ) (nfftAz nfftEl : ℕ)
    (w : ℕ → ℕ → ℂ) : List (List ℂ) × List ℝ × List ℝ :=
  let A : ℕ → ℕ → ℂ := fun k l =>
    ∑ p ∈ Finset.range (min sx nfftAz),
      ∑ q ∈ Finset.range (min sy nfftEl),
        w p q *
          Complex.exp (-(2 * (Real.pi : ℂ) * Complex.I * (p : ℂ) * (k : ℂ)) /
            (nfftAz : ℂ)) *
          Complex.exp (-(2 * (Real.pi : ℂ) * Complex.I * (q : ℂ) * (l : ℂ)) /
            (nfftEl : ℂ))
  let As : ℕ → ℕ → ℂ :=
    fun k l => A (fftshiftIdx nfftAz k) (fftshiftIdx nfftEl l)
  let mx := nfftAz * (tileCount dx).toNat
  let my := nfftEl * (tileCount dy).toNat
  let ksx := kAxis dx nfftAz
  let ksy := kAxis dy nfftEl
  let keptR := (List.range mx).filter
    (fun i => decide (-1 ≤ ksx.getD i 0 ∧ ksx.getD i 0 ≤ 1))
  let keptC := (List.range my).filter
    (fun j => decide (-1 ≤ ksy.getD j 0 ∧ ksy.getD j 0 ≤ 1))
  (keptR.map (fun i => keptC.map (fun j => As (i % nfftAz) (j % nfftEl))),
    keptR.map (fun i => Real.arcsin (ksx.getD i 0) / Real.pi * 180),
    keptC.map (fun j => Real.arcsin (ksy.getD j 0) / Real.pi * 180))

/-- The value returned by one run of `RectArray.get_pattern`: which of
the three mutually exclusive FFT modes produced it, with its data. -/
inductive RectPatternResult where
  | azCut : RectCut → RectPatternResult
  | elCut : RectCut → RectPatternResult
  | full : List (List ℂ) × List ℝ × List ℝ → RectPatternResult

/-- `RectArray.get_pattern`: the guarded branch dispatch of the source.
When no branch matches (`nfft_az <= 1 and nfft_el <= 1`) the local `AF`
of the source is never assigned and the `return` statement raises
`UnboundLocalError`; this is modeled by `none`. -/
def rectGetPattern (sx sy : ℕ) (dx dy : ℝ) (nfftAz nfftEl : ℕ)
    (beamAz beamEl : ℝ) (winx winy : ℕ → ℝ)
    (plotAz plotEl : Option ℝ) : Option RectPatternResult :=
  let weight := rectWeight sx sy dx dy beamAz beamEl winx winy
  if nfftEl ≤ 1 ∧ nfftAz > 1 then
    some (.azCut (rectAzOnly sx sy dx dy nfftAz weight (plotEl.getD beamEl)))
  else if nfftAz ≤ 1 ∧ nfftEl > 1 then
    some (.elCut (rectElOnly sx sy dx dy nfftEl weight (plotAz.getD beamAz)))
  else if nfftEl > 1 ∧ nfftAz > 1 then
    some (.full (rectFull2D sx sy dx dy nfftAz nfftEl weight))
  else none

/-- C5: calling `RectArray.get_pattern` with `nfft_az ≤ 1` and
`nfft_el ≤ 1` fails (no branch of the evaluator produces an array
factor; the source raises instead of returning a pattern result). -/
theorem rect_degenerate_c5 (sx sy : ℕ) (dx dy : ℝ) (nfftAz nfftEl : ℕ)
    (beamAz beamEl : ℝ) (winx winy : ℕ → ℝ) (plotAz plotEl : Option ℝ)
    (hAz : nfftAz ≤ 1) (hEl : nfftEl ≤ 1) :
    rectGetPattern sx sy dx dy nfftAz nfftEl beamAz beamEl winx winy
      plotAz plotEl = none := by
  unfold rectGetPattern
  rw [if_neg (by omega), if_neg (by omega), if_neg (by omega)]

/-- Witness for `rect_degenerate_c5`: the concrete degenerate call with
`nfft_az = nfft_el = 1` on a 2×2 array returns no pattern result. -/
theorem rect_degenerate_c5_witness :
    (1 : ℕ) ≤ 1 ∧
      rectGetPattern 2 2 (1/2) (1/2) 1 1 0 0 squareWin squareWin
        none none = none :=
  ⟨le_refl 1,
    rect_degenerate_c5 2 2 (1/2) (1/2) 1 1 0 0 squareWin squareWin
      none none (by norm_num) (by norm_num)⟩

/-- C6: the elevation-only FFT mode of `RectArray.get_pattern`
(`antarray/rectarray.py`) is exactly the axis-swapped mirror of the
azimuth-only mode: running the elevation-only branch on a weight grid
`w` equals running the azimuth-only branch on the transposed grid with
the axis sizes and spacings swapped.  Consequently the FFT is taken
along the y axis, the result is tiled `tile_y` times, the array factor
and the `k_el` axis are cropped to `k_el ∈ [-1, 1]`, and the returned
elevation angles are `arcsin` of the retained `k_el` values — `k_el` is
never taken from the `k_az` axis. -/
theorem rect_el_mirror_c6 :
    ∀ (sx sy : ℕ) (dx dy : ℝ) (nfft : ℕ) (w : ℕ → ℕ → ℂ) (az : ℝ),
      rectElOnly sx sy dx dy nfft w az =
        rectAzOnly sy sx dy dx nfft (fun i j => w j i) az :=
  fun _ _ _ _ _ _ _ => rfl

end

end Antarray
